import Mathlib

/-!
# Verification of the FullCourseGen response-parsing and orchestration pipeline

A shallow embedding, over `List Char`, of the reproducible logic of the four
FastAPI services in this repository:

* `contentlabelall.py`   — content classifier (`/detect-domain-from-file`)
* `courserecommendataion.py` — course recommender (`/course-recommendation`)
* `fullcoursegen.py`     — content generator (`/generate-course`)
* `fullmcqgen.py`        — MCQ generator (`/generate-question`, `/predict-level`)

Python strings are modelled as `List Char`; Python floats that are only ever
compared (never arithmetically combined) are modelled as `ℚ`; fallible code
returns `Except`/`Option`.  External collaborators (the generative model, the
file downloader, the text extractors) appear as oracle parameters.
-/

/-! ## Python string primitives -/

/-- The whitespace set stripped by Python `str.strip()` (ASCII part: space,
tab, newline, carriage return, vertical tab, form feed).  All inputs in this
development are ASCII, so the Unicode tail of `str.isspace` is irrelevant. -/
def pyIsSpace (c : Char) : Bool :=
  c = ' ' || c = '\t' || c = '\n' || c = '\r' || c = Char.ofNat 11 || c = Char.ofNat 12

/-- Drop the longest suffix of characters satisfying `p`. -/
def dropRightWhile (p : Char → Bool) (s : List Char) : List Char :=
  ((s.reverse).dropWhile p).reverse

/-- Python `str.strip(chars)`: remove characters satisfying `p` from both ends. -/
def stripChars (p : Char → Bool) (s : List Char) : List Char :=
  dropRightWhile p (s.dropWhile p)

/-- Python `str.strip()` with no argument. -/
def pyStrip (s : List Char) : List Char :=
  stripChars pyIsSpace s

/-- The single-quote character, written via its code point. -/
def squote : Char := Char.ofNat 39

/-- Python `str.lower()` restricted to ASCII (identical to `str.lower()` on
ASCII input, which is all the classifier dispatch compares against). -/
def pyLower (c : Char) : Char := c.toLower

/-! ## Response-text normalization, transcribed separately from each site -/

/-- The Markdown JSON code-fence opener checked by `startswith` in
`contentlabelall.py` and `courserecommendataion.py`. -/
def fenceOpen : List Char := ("```json").toList

/-- The code-fence closer checked by `endswith`. -/
def fenceClose : List Char := ("```").toList

/-- The triple-quote marker checked by `startswith`/`endswith`. -/
def quote3 : List Char := [squote, squote, squote]

/-- `contentlabelall.py` lines 85–95: strip, then remove one leading
` ```json `, one trailing ` ``` `, one leading and one trailing triple-quote. -/
def detect_normalize (s : List Char) : List Char :=
  let t0 := pyStrip s
  let t1 := if fenceOpen.isPrefixOf t0 then t0.drop 7 else t0
  let t2 := if fenceClose.isSuffixOf t1 then t1.take (t1.length - 3) else t1
  let t3 := if quote3.isPrefixOf t2 then t2.drop 3 else t2
  let t4 := if quote3.isSuffixOf t3 then t3.take (t3.length - 3) else t3
  t4

/-- `courserecommendataion.py` lines 83–93: the marker-stripping performed by
`recommend_course` before the bracket-wrapping step. -/
def recommend_normalize (s : List Char) : List Char :=
  let t0 := pyStrip s
  let t1 := if fenceOpen.isPrefixOf t0 then t0.drop 7 else t0
  let t2 := if fenceClose.isSuffixOf t1 then t1.take (t1.length - 3) else t1
  let t3 := if quote3.isPrefixOf t2 then t2.drop 3 else t2
  let t4 := if quote3.isSuffixOf t3 then t3.take (t3.length - 3) else t3
  t4

/-- One pass of Python `re.sub(r"^```json|```$", "", text, flags=re.MULTILINE)`:
scan left to right over the original text; at a line start (position 0 or just
after a newline) a literal ` ```json ` match is removed; otherwise a literal
` ``` ` immediately followed by a newline or the end of input is removed;
otherwise the character is kept.  Scanning resumes after each match.  Every
step consumes at least one input character, so fuel equal to the input length
never runs out. -/
def fenceSubGo : Nat → Bool → List Char → List Char
  | 0, _, s => s
  | _ + 1, _, [] => []
  | fuel + 1, atStart, c :: rest =>
    if atStart ∧ fenceOpen.isPrefixOf (c :: rest) then
      fenceSubGo fuel false ((c :: rest).drop 7)
    else if fenceClose.isPrefixOf (c :: rest) ∧
        (((c :: rest).drop 3) = [] ∨ ((c :: rest).drop 3).head? = some '\n') then
      fenceSubGo fuel false ((c :: rest).drop 3)
    else
      c :: fenceSubGo fuel (c = '\n') rest

/-- The regex substitution, started at position 0 (a line start). -/
def fenceSub (s : List Char) : List Char := fenceSubGo s.length true s

/-- `fullcoursegen.py` line 100 (also 136, 209): regex fence removal followed
by `strip()`. -/
def content_clean (s : List Char) : List Char :=
  pyStrip (fenceSub s)

/-- `fullmcqgen.py` line 120 (also 149, 198): regex fence removal followed by
`strip()`. -/
def mcq_clean (s : List Char) : List Char :=
  pyStrip (fenceSub s)

/-! ## A model of Python `json.loads`

`json.loads` is the standard-library JSON decoder used at every parse site.
Values are modelled as parse trees; number tokens keep their lexeme (so no
floating-point semantics enter the embedding).  The grammar follows Python's
decoder: strict JSON plus the `NaN` / `Infinity` / `-Infinity` constants that
`json.loads` accepts by default; raw control characters inside strings are
rejected (strict mode); object member lists keep duplicates in order. -/

inductive JVal where
  | null : JVal
  | bool : Bool → JVal
  | num : List Char → JVal
  | str : List Char → JVal
  | arr : List JVal → JVal
  | obj : List (List Char × JVal) → JVal

/-- JSON insignificant whitespace (exactly the set the CPython scanner skips). -/
def jsonWs (c : Char) : Bool := c = ' ' || c = '\t' || c = '\n' || c = '\r'

/-- Skip leading JSON whitespace. -/
def skipWs : List Char → List Char
  | [] => []
  | c :: r => if jsonWs c then skipWs r else c :: r

/-- Value of a hexadecimal digit. -/
def hexDigitVal (c : Char) : Option Nat :=
  if c.isDigit then some (c.toNat - 48)
  else if 'a' ≤ c ∧ c ≤ 'f' then some (c.toNat - 87)
  else if 'A' ≤ c ∧ c ≤ 'F' then some (c.toNat - 55)
  else none

/-- Decoding of a single-character JSON escape. -/
def escDecode (e : Char) : Option Char :=
  if e = '"' then some '"'
  else if e = '\\' then some '\\'
  else if e = '/' then some '/'
  else if e = 'b' then some (Char.ofNat 8)
  else if e = 'f' then some (Char.ofNat 12)
  else if e = 'n' then some '\n'
  else if e = 'r' then some '\r'
  else if e = 't' then some '\t'
  else none

/-- Parse the body of a JSON string (the opening quote already consumed),
returning the decoded characters and the input past the closing quote.
The fuel argument only bounds recursion depth; any fuel at least the input
length succeeds whenever the string is well formed. -/
def parseStringBody : Nat → List Char → Option (List Char × List Char)
  | 0, _ => none
  | _ + 1, [] => none
  | f + 1, c :: r =>
    if c = '"' then some ([], r)
    else if c = '\\' then
      match r with
      | [] => none
      | e :: r2 =>
        if e = 'u' then
          match r2 with
          | h1 :: h2 :: h3 :: h4 :: r3 =>
            match hexDigitVal h1, hexDigitVal h2, hexDigitVal h3, hexDigitVal h4 with
            | some a, some b, some cc, some d =>
              match parseStringBody f r3 with
              | some (v, rest) =>
                some (Char.ofNat (((a * 16 + b) * 16 + cc) * 16 + d) :: v, rest)
              | none => none
            | _, _, _, _ => none
          | _ => none
        else
          match escDecode e with
          | some d =>
            match parseStringBody f r2 with
            | some (v, rest) => some (d :: v, rest)
            | none => none
          | none => none
    else if c.toNat < 32 then none
    else
      match parseStringBody f r with
      | some (v, rest) => some (c :: v, rest)
      | none => none

/-- The optional fraction part of a JSON number (with backtracking: a dot not
followed by a digit is left in place, as in the decoder's number regex). -/
def fracPart (s : List Char) : List Char × List Char :=
  match s with
  | [] => ([], [])
  | c :: r =>
    if c = '.' then
      match r.takeWhile Char.isDigit with
      | [] => ([], s)
      | d :: ds => ('.' :: d :: ds, r.dropWhile Char.isDigit)
    else ([], s)

/-- The optional exponent part of a JSON number (with backtracking). -/
def expPart (s : List Char) : List Char × List Char :=
  match s with
  | [] => ([], [])
  | c :: r =>
    if c = 'e' ∨ c = 'E' then
      match r with
      | [] => ([], s)
      | c2 :: r2 =>
        if c2 = '+' ∨ c2 = '-' then
          match r2.takeWhile Char.isDigit with
          | [] => ([], s)
          | d :: ds => (c :: c2 :: d :: ds, r2.dropWhile Char.isDigit)
        else
          match r.takeWhile Char.isDigit with
          | [] => ([], s)
          | d :: ds => (c :: d :: ds, r.dropWhile Char.isDigit)
    else ([], s)

/-- An unsigned JSON number: `0` or a nonzero digit followed by digits, then
optional fraction and exponent.  Returns the lexeme and the rest. -/
def parseNumberPos (s : List Char) : Option (List Char × List Char) :=
  match s with
  | [] => none
  | c :: r =>
    if c = '0' then
      let p1 := fracPart r
      let p2 := expPart p1.2
      some ('0' :: (p1.1 ++ p2.1), p2.2)
    else if c.isDigit then
      let ds := r.takeWhile Char.isDigit
      let r1 := r.dropWhile Char.isDigit
      let p1 := fracPart r1
      let p2 := expPart p1.2
      some (c :: (ds ++ p1.1 ++ p2.1), p2.2)
    else none

/-- A JSON number with optional leading minus sign. -/
def parseNumber (s : List Char) : Option (List Char × List Char) :=
  match s with
  | [] => none
  | c :: r =>
    if c = '-' then
      match parseNumberPos r with
      | some (lex, rest) => some ('-' :: lex, rest)
      | none => none
    else parseNumberPos s

mutual

/-- Parse one JSON value, skipping leading whitespace. -/
def parseVal : Nat → List Char → Option (JVal × List Char)
  | 0, _ => none
  | f + 1, s =>
    match skipWs s with
    | [] => none
    | c :: r =>
      if c = '{' then parseObj f r
      else if c = '[' then parseArr f r
      else if c = '"' then
        match parseStringBody f r with
        | some (cs, rest) => some (JVal.str cs, rest)
        | none => none
      else if c = 't' then
        if (("rue").toList).isPrefixOf r then some (JVal.bool true, r.drop 3) else none
      else if c = 'f' then
        if (("alse").toList).isPrefixOf r then some (JVal.bool false, r.drop 4) else none
      else if c = 'n' then
        if (("ull").toList).isPrefixOf r then some (JVal.null, r.drop 3) else none
      else if c = 'N' then
        if (("aN").toList).isPrefixOf r then some (JVal.num (("NaN").toList), r.drop 2)
        else none
      else if c = 'I' then
        if (("nfinity").toList).isPrefixOf r then
          some (JVal.num (("Infinity").toList), r.drop 7)
        else none
      else if c = '-' ∧ (("Infinity").toList).isPrefixOf r then
        some (JVal.num (("-Infinity").toList), r.drop 8)
      else
        match parseNumber (c :: r) with
        | some (lex, rest) => some (JVal.num lex, rest)
        | none => none

/-- Parse an array body (input starts just after `[`). -/
def parseArr : Nat → List Char → Option (JVal × List Char)
  | 0, _ => none
  | f + 1, s =>
    match skipWs s with
    | [] => none
    | c :: r =>
      if c = ']' then some (JVal.arr [], r)
      else
        match parseElems f s with
        | some (vs, rest) => some (JVal.arr vs, rest)
        | none => none

/-- Parse a nonempty comma-separated element list closed by `]`. -/
def parseElems : Nat → List Char → Option (List JVal × List Char)
  | 0, _ => none
  | f + 1, s =>
    match parseVal f s with
    | none => none
    | some (v, rest) =>
      match skipWs rest with
      | [] => none
      | c :: r =>
        if c = ',' then
          match parseElems f r with
          | some (vs, rest2) => some (v :: vs, rest2)
          | none => none
        else if c = ']' then some ([v], r)
        else none

/-- Parse an object body (input starts just after `{`). -/
def parseObj : Nat → List Char → Option (JVal × List Char)
  | 0, _ => none
  | f + 1, s =>
    match skipWs s with
    | [] => none
    | c :: r =>
      if c = '}' then some (JVal.obj [], r)
      else
        match parseMembers f s with
        | some (ms, rest) => some (JVal.obj ms, rest)
        | none => none

/-- Parse a nonempty comma-separated member list closed by `}`. -/
def parseMembers : Nat → List Char → Option (List (List Char × JVal) × List Char)
  | 0, _ => none
  | f + 1, s =>
    match skipWs s with
    | [] => none
    | c :: r =>
      if c = '"' then
        match parseStringBody f r with
        | none => none
        | some (key, rest) =>
          match skipWs rest with
          | [] => none
          | c2 :: r2 =>
            if c2 = ':' then
              match parseVal f r2 with
              | none => none
              | some (v, rest2) =>
                match skipWs rest2 with
                | [] => none
                | c3 :: r3 =>
                  if c3 = ',' then
                    match parseMembers f r3 with
                    | some (ms, rest3) => some ((key, v) :: ms, rest3)
                    | none => none
                  else if c3 = '}' then some ([(key, v)], r3)
                  else none
            else none
      else none

end

/-- Python `json.loads`: parse one value and require only whitespace after it.
Every mutual-recursion step either consumes an input character or moves, in at
most three steps, to a call that does, so `3·|s| + 3` fuel never runs out on
inputs the decoder accepts. -/
def json_loads (s : List Char) : Option JVal :=
  match parseVal (3 * s.length + 3) s with
  | some (v, rest) => if skipWs rest = [] then some v else none
  | none => none

/-! ## Course recommender (`courserecommendataion.py`) -/

/-- The character class of Python `strip("[]")`. -/
def isSquareBracket (c : Char) : Bool := c = '[' || c = ']'

/-- `courserecommendataion.py` line 96: wrap the (already marker-normalized)
model text in square brackets after `strip()` and `strip("[]")`. -/
def recommend_wrap (response_text : List Char) : List Char :=
  '[' :: (stripChars isSquareBracket (pyStrip response_text) ++ [']'])

/-- Outcome of the recommendation parse stage.  A `json.JSONDecodeError` is
caught at lines 102–103 and surfaced as `HTTPException(500, "Failed to parse
recommendations: …")` — the spec's `RecommendationParseError`. -/
inductive RecOutcome where
  | ok : JVal → RecOutcome
  | recommendationParseError : RecOutcome

/-- `courserecommendataion.py` lines 83–103: normalize the model text, wrap it
in brackets, and parse; a parse failure raises the 500 parse error. -/
def recommend_parse_stage (model_text : List Char) : RecOutcome :=
  let t := recommend_normalize model_text
  match json_loads (recommend_wrap t) with
  | some v => RecOutcome.ok v
  | none => RecOutcome.recommendationParseError

/-! ## Content classifier (`contentlabelall.py`) -/

/-- The last component of `s.split(sep)` (Python `split(sep)[-1]`): fold left,
restarting the accumulator after each separator. -/
def afterLast (sep : Char) (s : List Char) : List Char :=
  s.foldl (fun acc c => if c = sep then [] else acc ++ [c]) []

/-- `os.path.basename` on a POSIX path/URL: the part after the last slash. -/
def basename (url : List Char) : List Char := afterLast '/' url

/-- `contentlabelall.py` line 53: `filename.split(".")[-1].lower()`. -/
def file_extension (filename : List Char) : List Char :=
  (afterLast '.' filename).map pyLower

/-- The three extractors the classifier can dispatch to. -/
inductive ExtractorKind where
  | docx : ExtractorKind
  | pdf : ExtractorKind
  | pptx : ExtractorKind
deriving DecidableEq

/-- The extension string each extractor is keyed by. -/
def extOf : ExtractorKind → List Char
  | ExtractorKind.docx => ("docx").toList
  | ExtractorKind.pdf => ("pdf").toList
  | ExtractorKind.pptx => ("pptx").toList

/-- `contentlabelall.py` lines 56–67: the `if/elif` chain keyed on the
lowercased extension; `none` is the `else` branch that raises
`HTTPException(400, "Unsupported file type.")`. -/
def extension_dispatch (ext : List Char) : Option ExtractorKind :=
  if ext = ("docx").toList then some ExtractorKind.docx
  else if ext = ("pdf").toList then some ExtractorKind.pdf
  else if ext = ("pptx").toList then some ExtractorKind.pptx
  else none

/-- An exception escaping the classifier's inner code: either a raised
`fastapi.HTTPException` (status, detail) or a plain Python exception such as
the `AttributeError` from calling `.get` on a non-dict parse result. -/
inductive PyError where
  | httpExc : Nat → List Char → PyError
  | attrError : PyError

/-- The classifier's success payload: filename plus the three fields read off
the parsed model response with `result.get(key, default)`. -/
structure ClassifierOk where
  filename : List Char
  domain : JVal
  subdomain : JVal
  explanation : JVal

/-- Python `dict.get(key, default)` on the dict `json.loads` builds from a
member list (later duplicate keys overwrite earlier ones, hence the reversed
search). -/
def jget (fields : List (List Char × JVal)) (key : List Char) (dflt : JVal) : JVal :=
  match fields.reverse.find? (fun kv => decide (kv.1 = key)) with
  | some kv => kv.2
  | none => dflt

/-- `contentlabelall.py` lines 46–108, the body of the endpoint's `try` block.
Oracles: `downloadStatus` is the HTTP status of `requests.get(file_url)`,
`extracted` the text produced by whichever extractor runs, `modelText` the
generative model's response text.  The second component records whether the
model was invoked (`model.generate_content`, line 82). -/
def detect_domain_inner (url : List Char) (downloadStatus : Nat)
    (extracted : List Char) (modelText : List Char) :
    Except PyError ClassifierOk × Bool :=
  if downloadStatus ≠ 200 then
    (Except.error (PyError.httpExc 400 (("Failed to download file.").toList)), false)
  else
    let filename := basename url
    let ext := file_extension filename
    match extension_dispatch ext with
    | none =>
      (Except.error (PyError.httpExc 400 (("Unsupported file type.").toList)), false)
    | some _ =>
      if pyStrip extracted = [] then
        (Except.error (PyError.httpExc 400 (("Extracted content is empty.").toList)), false)
      else
        let response_text := detect_normalize modelText
        match json_loads response_text with
        | none =>
          (Except.error
            (PyError.httpExc 500 (("Gemini response is not in valid JSON format.").toList)),
            true)
        | some (JVal.obj fields) =>
          (Except.ok
            { filename := filename
              domain := jget fields (("domain").toList) (JVal.str (("Unknown").toList))
              subdomain := jget fields (("subdomain").toList) (JVal.str (("Unknown").toList))
              explanation := jget fields (("explanation").toList)
                (JVal.str (("No explanation provided.").toList)) }, true)
        | some _ => (Except.error PyError.attrError, true)

/-- An HTTP error response as produced by raising `fastapi.HTTPException`. -/
structure HTTPError where
  status : Nat
  detail : List Char

/-- The detail string the blanket handler builds from `str(e)`.  We keep the
inner detail; only the status matters to the claims. -/
def pyErrorStr : PyError → List Char
  | PyError.httpExc _ d => d
  | PyError.attrError => ("AttributeError").toList

/-- `contentlabelall.py` lines 45–111: the whole endpoint.  The blanket
`except Exception as e: raise HTTPException(status_code=500, detail=str(e))`
at lines 110–111 also catches the `HTTPException(400, …)` values raised inside
the `try` block (`fastapi.HTTPException` subclasses `Exception`), so every
failure leaves the endpoint with status 500. -/
def detect_domain_from_file (url : List Char) (downloadStatus : Nat)
    (extracted : List Char) (modelText : List Char) :
    Except HTTPError ClassifierOk :=
  match detect_domain_inner url downloadStatus extracted modelText with
  | (Except.ok r, _) => Except.ok r
  | (Except.error e, _) => Except.error { status := 500, detail := pyErrorStr e }

/-! ## User level predictor (`fullmcqgen.py`) -/

/-- The `UserLevel` enum of `fullmcqgen.py`. -/
inductive UserLevel where
  | Beginner : UserLevel
  | Intermediate : UserLevel
  | Advanced : UserLevel
deriving DecidableEq

/-- `fullmcqgen.py` lines 54–63: the pure level predictor.  Scores and times
are Python floats that are only compared against integer thresholds, so `ℚ`
carries the comparison semantics exactly. -/
def predict_user_level (score time_taken : ℚ) : UserLevel :=
  if 7 ≤ score ∧ time_taken ≤ 80 then UserLevel.Advanced
  else if 4 ≤ score ∧ score < 7 then UserLevel.Intermediate
  else UserLevel.Beginner

/-- `fullmcqgen.py` lines 66–75: the `/predict-level` handler.  The `try`
body only calls `predict_user_level`, which is a total function of its two
arguments (an `if`/`elif`/`else` over comparisons), so the `except` branch
(`HTTPException(500, "Prediction error: …")`) has no corresponding
`Except.error` constructor application. -/
def predict_level_handler (score time_taken : ℚ) : Except HTTPError UserLevel :=
  Except.ok (predict_user_level score time_taken)

/-! ## The two generation pipelines (`fullcoursegen.py`, `fullmcqgen.py`)

Both pipelines first obtain a course skeleton with an ordered list of unit
stubs and then expand every stub.  The expansion of a single stub is an
external effect (two model calls and, for the content pipeline, a video
lookup); it is abstracted as an oracle `expand : σ → Except ε υ` giving each
stub's outcome.  `asyncio.gather(*tasks, return_exceptions=True)` returns the
per-task outcomes positionally, i.e. in the order the tasks were created from
the stubs, which is `stubs.map expand`. -/

/-- The `HTTPException(status_code=500, detail="Failed to generate any unit
details")` raised by both pipelines — the spec's `NoUnitsGeneratedError`. -/
def noUnitsGeneratedError : HTTPError :=
  { status := 500, detail := ("Failed to generate any unit details").toList }

/-- `fullmcqgen.py` lines 216–218: the comprehension
`[unit for unit in detailed_units if not isinstance(unit, Exception)]`. -/
def dropExceptions {υ ε : Type} (results : List (Except ε υ)) : List υ :=
  results.filterMap (fun r =>
    match r with
    | Except.ok u => some u
    | Except.error _ => none)

/-- `fullmcqgen.py` lines 203–226: fan out one task per unit stub, gather with
`return_exceptions=True`, drop outcomes that are exceptions, fail if nothing
survives, otherwise return the surviving unit records. -/
def mcq_generate_course {σ υ ε : Type} (stubs : List σ) (expand : σ → Except ε υ) :
    Except HTTPError (List υ) :=
  let detailed := stubs.map expand
  let units := dropExceptions detailed
  if units.isEmpty then Except.error noUnitsGeneratedError else Except.ok units

/-- `fullcoursegen.py` lines 216–228: the body of the sequential `for` loop —
append the expanded unit on success, `continue` past a failure. -/
def appendIfOk {σ υ ε : Type} (expand : σ → Except ε υ) (acc : List υ) (s : σ) :
    List υ :=
  match expand s with
  | Except.ok u => acc ++ [u]
  | Except.error _ => acc

/-- `fullcoursegen.py` lines 214–239: expand units one at a time in a `for`
loop; a failing unit is caught, logged and skipped (`continue`); fail if no
unit survived, otherwise return the accumulated unit records. -/
def content_generate_course {σ υ ε : Type} (stubs : List σ) (expand : σ → Except ε υ) :
    Except HTTPError (List υ) :=
  let detailed := stubs.foldl (appendIfOk expand) []
  if detailed.isEmpty then Except.error noUnitsGeneratedError else Except.ok detailed

/-! ## Concrete example inputs used by witnesses and counterexamples -/

/-- A model response wrapped in triple quotes: `'''{}'''`. -/
def tripleQuotedBraces : List Char := quote3 ++ ("\x7b\x7d").toList ++ quote3

/-- The spec's example recommendation object
`{"subject":"X","units":1,"focus_area":"Y","difficulty":"Z"}`. -/
def recObjExample : List Char :=
  ("\x7b\"subject\":\"X\",\"units\":1,\"focus_area\":\"Y\",\"difficulty\":\"Z\"\x7d").toList

/-- The parse tree `json.loads` produces for `recObjExample`. -/
def recObjParsed : List (List Char × JVal) :=
  [((("subject").toList), JVal.str (("X").toList)),
   ((("units").toList), JVal.num (("1").toList)),
   ((("focus_area").toList), JVal.str (("Y").toList)),
   ((("difficulty").toList), JVal.str (("Z").toList))]

/-- The spec's nested-array example `[[1,2],[3,4]]`. -/
def nestedArrExample : List Char := ("[[1,2],[3,4]]").toList

/-- A five-stub expansion oracle for the MCQ pipeline under which exactly the
stubs `1` and `3` succeed (3 of 5 tasks fail). -/
def mcqExpandEx : Nat → Except Unit Nat :=
  fun n => if n = 1 ∨ n = 3 then Except.ok n else Except.error ()

/-! # Theorems -/

/-! ## C1, C9 — the user level predictor -/

/-- Claim C1: the user-level predictor is a pure function of
`(score, time_taken)`; on the validated domain `0 ≤ score ≤ 9`,
`0 < time_taken` it returns `Advanced` iff `score ≥ 7 ∧ time_taken ≤ 80`,
`Intermediate` iff `4 ≤ score < 7` (regardless of time), and `Beginner`
otherwise — including the anomaly that a high score with `time_taken > 80`
yields `Beginner` — together with the five tabulated values. -/
theorem predict_user_level_spec (score time_taken : ℚ)
    (hs0 : 0 ≤ score) (hs9 : score ≤ 9) (ht : 0 < time_taken) :
    (predict_user_level score time_taken = UserLevel.Advanced ↔
      (7 ≤ score ∧ time_taken ≤ 80))
    ∧ (predict_user_level score time_taken = UserLevel.Intermediate ↔
      (4 ≤ score ∧ score < 7))
    ∧ (predict_user_level score time_taken = UserLevel.Beginner ↔
      (¬(7 ≤ score ∧ time_taken ≤ 80) ∧ ¬(4 ≤ score ∧ score < 7)))
    ∧ predict_user_level 7 80 = UserLevel.Advanced
    ∧ predict_user_level 7 81 = UserLevel.Beginner
    ∧ predict_user_level 6 1000 = UserLevel.Intermediate
    ∧ predict_user_level 3 1 = UserLevel.Beginner
    ∧ predict_user_level 9 5 = UserLevel.Advanced := by
  refine ⟨?_, ?_, ?_, ?_, ?_, ?_, ?_, ?_⟩
  · by_cases h1 : 7 ≤ score ∧ time_taken ≤ 80
    · simp [predict_user_level, h1]
    · by_cases h2 : 4 ≤ score ∧ score < 7 <;> simp [predict_user_level, h1, h2]
  · by_cases h1 : 7 ≤ score ∧ time_taken ≤ 80
    · have : ¬(4 ≤ score ∧ score < 7) := fun h2 => absurd h1.1 (by linarith [h2.2])
      simp [predict_user_level, h1, this]
    · by_cases h2 : 4 ≤ score ∧ score < 7 <;> simp [predict_user_level, h1, h2]
  · by_cases h1 : 7 ≤ score ∧ time_taken ≤ 80
    · simp [predict_user_level, h1]
    · by_cases h2 : 4 ≤ score ∧ score < 7 <;> simp [predict_user_level, h1, h2]
  · norm_num [predict_user_level]
  · norm_num [predict_user_level]
  · norm_num [predict_user_level]
  · norm_num [predict_user_level]
  · norm_num [predict_user_level]

/-- Witness for C1 at `score = 7`, `time_taken = 80`. -/
theorem predict_user_level_spec_witness :
    (0:ℚ) ≤ 7 ∧ (7:ℚ) ≤ 9 ∧ (0:ℚ) < 80 ∧
      (predict_user_level 7 80 = UserLevel.Advanced ↔ ((7:ℚ) ≤ 7 ∧ (80:ℚ) ≤ 80)) :=
  ⟨by norm_num, by norm_num, by norm_num,
    (predict_user_level_spec 7 80 (by norm_num) (by norm_num) (by norm_num)).1⟩

/-- Claim C9 (implicit): on every request satisfying the declared validation
bounds, the `/predict-level` handler returns one of the three levels and its
500 "Prediction error" branch is unreachable. -/
theorem predict_level_handler_total (score time_taken : ℚ)
    (hs0 : 0 ≤ score) (hs9 : score ≤ 9) (ht : 0 < time_taken) :
    (∃ l, predict_level_handler score time_taken = Except.ok l ∧
      (l = UserLevel.Beginner ∨ l = UserLevel.Intermediate ∨ l = UserLevel.Advanced))
    ∧ ∀ e, predict_level_handler score time_taken ≠ Except.error e := by
  refine ⟨⟨predict_user_level score time_taken, rfl, ?_⟩,
    fun e h => by simp [predict_level_handler] at h⟩
  cases predict_user_level score time_taken <;> simp

/-- Witness for C9 at `score = 5`, `time_taken = 30`. -/
theorem predict_level_handler_total_witness :
    (0:ℚ) ≤ 5 ∧ (5:ℚ) ≤ 9 ∧ (0:ℚ) < 30 ∧
      ((∃ l, predict_level_handler 5 30 = Except.ok l ∧
        (l = UserLevel.Beginner ∨ l = UserLevel.Intermediate ∨ l = UserLevel.Advanced))
      ∧ ∀ e, predict_level_handler 5 30 ≠ Except.error e) :=
  ⟨by norm_num, by norm_num, by norm_num,
    predict_level_handler_total 5 30 (by norm_num) (by norm_num) (by norm_num)⟩

/-! ## C3, C8 — normalization -/

/-- Counterexample to claim C3: the classifier's marker-stripping and the
generators' regex cleanup disagree on the triple-quoted response `'''{}'''`
(the former strips the quotes, the regex pass does not). -/
theorem normalize_sites_differ :
    detect_normalize tripleQuotedBraces ≠ content_clean tripleQuotedBraces := by
  decide

/-- Claim C3 as amended: the classifier and the recommender normalize
identically, and the content generator and the MCQ generator normalize
identically; but the two algorithms are not the same (see
`normalize_sites_differ`). -/
theorem normalize_sites_pairwise_equal (s : List Char) :
    detect_normalize s = recommend_normalize s ∧ content_clean s = mcq_clean s :=
  ⟨rfl, rfl⟩

/-- Claim C8: the fence/quote-stripping normalization is idempotent on
normalized output — a string with no leading code-fence opener, no trailing
code-fence closer, no leading or trailing triple-quote marker and no
surrounding whitespace is returned unchanged. -/
theorem detect_normalize_idempotent (s : List Char)
    (hws : pyStrip s = s)
    (h1 : fenceOpen.isPrefixOf s = false)
    (h2 : fenceClose.isSuffixOf s = false)
    (h3 : quote3.isPrefixOf s = false)
    (h4 : quote3.isSuffixOf s = false) :
    detect_normalize s = s := by
  simp [detect_normalize, hws, h1, h2, h3, h4]

/-- Witness for C8 at the normalized JSON string `{"a": 1}`. -/
theorem detect_normalize_idempotent_witness :
    pyStrip (("\x7b\"a\": 1\x7d").toList) = ("\x7b\"a\": 1\x7d").toList ∧
      detect_normalize (("\x7b\"a\": 1\x7d").toList) = ("\x7b\"a\": 1\x7d").toList :=
  ⟨by decide,
    detect_normalize_idempotent _ (by decide) (by decide) (by decide) (by decide) (by decide)⟩

/-! ## C2, C4 — pipeline assembly and failure policy -/

/-- `filterMap` over a mapped list fuses to a single `filterMap`. -/
theorem filterMap_map_fuse {α β γ : Type} (f : α → β) (g : β → Option γ) (l : List α) :
    (l.map f).filterMap g = l.filterMap (fun a => g (f a)) := by
  induction l with
  | nil => rfl
  | cons a l ih => simp [List.filterMap_cons, ih]

/-- The MCQ pipeline's exception filter, fused over the gathered task list. -/
theorem dropExceptions_map {σ υ ε : Type} (expand : σ → Except ε υ) (stubs : List σ) :
    dropExceptions (stubs.map expand) = stubs.filterMap (fun s => (expand s).toOption) := by
  unfold dropExceptions
  rw [filterMap_map_fuse]
  congr 1
  funext s
  cases expand s <;> rfl

/-- Unfolding of `mcq_generate_course` (the `let` chain reduced). -/
theorem mcq_generate_course_def {σ υ ε : Type} (stubs : List σ) (expand : σ → Except ε υ) :
    mcq_generate_course stubs expand =
      if (dropExceptions (stubs.map expand)).isEmpty then Except.error noUnitsGeneratedError
      else Except.ok (dropExceptions (stubs.map expand)) := rfl

/-- Unfolding of `content_generate_course` (the `let` chain reduced). -/
theorem content_generate_course_def {σ υ ε : Type} (stubs : List σ) (expand : σ → Except ε υ) :
    content_generate_course stubs expand =
      if (stubs.foldl (appendIfOk expand) []).isEmpty then Except.error noUnitsGeneratedError
      else Except.ok (stubs.foldl (appendIfOk expand) []) := rfl

/-- The content pipeline's sequential accumulator ignores failing stubs. -/
theorem content_fold_all_fail {σ υ ε : Type} (expand : σ → Except ε υ) :
    ∀ (stubs : List σ), (∀ s ∈ stubs, (expand s).isOk = false) → ∀ acc : List υ,
      stubs.foldl (appendIfOk expand) acc = acc := by
  intro stubs
  induction stubs with
  | nil => intro _ acc; rfl
  | cons s l ih =>
    intro hall acc
    simp only [List.foldl_cons]
    have hf := hall s (List.mem_cons_self ..)
    cases h : expand s with
    | ok u =>
      rw [h] at hf
      simp [Except.isOk, Except.toBool] at hf
    | error e =>
      rw [show appendIfOk expand acc s = acc by unfold appendIfOk; rw [h]]
      exact ih (fun x hx => hall x (List.mem_cons_of_mem _ hx)) acc

/-- Claim C2: in the MCQ pipeline, when some per-unit expansion tasks fail
and others succeed, the final response contains exactly the succeeding units,
in the same order as the original unit stubs, and no error is raised to the
caller. -/
theorem mcq_partial_failure_spec {σ υ ε : Type} (stubs : List σ)
    (expand : σ → Except ε υ)
    (hsucc : ∃ s ∈ stubs, (expand s).isOk = true)
    (hfail : ∃ s ∈ stubs, (expand s).isOk = false) :
    mcq_generate_course stubs expand =
      Except.ok (stubs.filterMap (fun s => (expand s).toOption))
    ∧ ∀ e, mcq_generate_course stubs expand ≠ Except.error e := by
  obtain ⟨s0, hs0, hok⟩ := hsucc
  obtain ⟨u0, hu0⟩ : ∃ u, expand s0 = Except.ok u := by
    cases h : expand s0 with
    | ok u => exact ⟨u, rfl⟩
    | error e =>
      rw [h] at hok
      simp [Except.isOk, Except.toBool] at hok
  have hmem : u0 ∈ stubs.filterMap (fun s => (expand s).toOption) :=
    List.mem_filterMap.mpr ⟨s0, hs0, by simp [hu0, Except.toOption]⟩
  have hne : stubs.filterMap (fun s => (expand s).toOption) ≠ [] := by
    intro h
    rw [h] at hmem
    exact absurd hmem (List.not_mem_nil u0)
  have hres : mcq_generate_course stubs expand =
      Except.ok (stubs.filterMap (fun s => (expand s).toOption)) := by
    rw [mcq_generate_course_def, dropExceptions_map]
    rw [if_neg (by simpa [List.isEmpty_iff] using hne)]
  exact ⟨hres, fun e h => by rw [hres] at h; exact Except.noConfusion h⟩

/-- Witness for C2: five stubs of which exactly tasks `1` and `3` succeed
(3 of 5 fail); the response is `[1, 3]`, the survivors in stub order. -/
theorem mcq_partial_failure_spec_witness :
    (∃ s ∈ [0, 1, 2, 3, 4], (mcqExpandEx s).isOk = true)
    ∧ (∃ s ∈ [0, 1, 2, 3, 4], (mcqExpandEx s).isOk = false)
    ∧ mcq_generate_course [0, 1, 2, 3, 4] mcqExpandEx = Except.ok [1, 3] := by
  refine ⟨by decide, by decide, ?_⟩
  have h := (mcq_partial_failure_spec [0, 1, 2, 3, 4] mcqExpandEx
    (by decide) (by decide)).1
  rw [h]
  rfl

/-- Claim C4: when every unit expansion fails, both pipelines fail with the
`NoUnitsGeneratedError` 500 failure (`HTTPException(500, "Failed to generate
any unit details")`) and neither returns a success response with an empty
unit list.  The enclosing blanket handlers in both files re-raise this
exception with the same 500 status. -/
theorem all_units_fail_symmetry {σ υ ε : Type} (stubs : List σ)
    (expand : σ → Except ε υ)
    (hall : ∀ s ∈ stubs, (expand s).isOk = false) :
    content_generate_course stubs expand = Except.error noUnitsGeneratedError
    ∧ mcq_generate_course stubs expand = Except.error noUnitsGeneratedError
    ∧ noUnitsGeneratedError.status = 500
    ∧ (∀ us, content_generate_course stubs expand ≠ Except.ok us)
    ∧ (∀ us, mcq_generate_course stubs expand ≠ Except.ok us) := by
  have hnone : ∀ s ∈ stubs, (expand s).toOption = none := by
    intro s hs
    have hf := hall s hs
    cases h : expand s with
    | ok u =>
      rw [h] at hf
      simp [Except.isOk, Except.toBool] at hf
    | error e => rfl
  have hcontent : content_generate_course stubs expand =
      Except.error noUnitsGeneratedError := by
    rw [content_generate_course_def, content_fold_all_fail expand stubs hall []]
    rfl
  have hmcq : mcq_generate_course stubs expand =
      Except.error noUnitsGeneratedError := by
    rw [mcq_generate_course_def, dropExceptions_map]
    have hnil : stubs.filterMap (fun s => (expand s).toOption) = [] := by
      rw [List.filterMap_eq_nil_iff]
      exact hnone
    rw [hnil]
    rfl
  refine ⟨hcontent, hmcq, rfl, ?_, ?_⟩
  · intro us h
    rw [hcontent] at h
    exact Except.noConfusion h
  · intro us h
    rw [hmcq] at h
    exact Except.noConfusion h

/-- Witness for C4: two stubs whose expansions both fail. -/
theorem all_units_fail_symmetry_witness :
    (∀ s ∈ [0, 1], ((fun _ : Nat => (Except.error () : Except Unit Nat)) s).isOk = false)
    ∧ content_generate_course [0, 1] (fun _ : Nat => (Except.error () : Except Unit Nat)) =
        Except.error noUnitsGeneratedError
    ∧ mcq_generate_course [0, 1] (fun _ : Nat => (Except.error () : Except Unit Nat)) =
        Except.error noUnitsGeneratedError :=
  ⟨by decide,
    (all_units_fail_symmetry [0, 1] _ (by decide)).1,
    (all_units_fail_symmetry [0, 1] _ (by decide)).2.1⟩

/-! ## C10, C5 — the content classifier -/

/-- Folding the split-accumulator over separator-free input appends it. -/
theorem foldl_afterLast_no_sep (sep : Char) (ys : List Char) :
    sep ∉ ys → ∀ acc : List Char,
      ys.foldl (fun acc c => if c = sep then [] else acc ++ [c]) acc = acc ++ ys := by
  induction ys with
  | nil => intro _ acc; simp
  | cons c r ih =>
    intro h acc
    simp only [List.foldl_cons]
    rw [if_neg (by rintro rfl; exact h (List.mem_cons_self ..))]
    rw [ih (fun hm => h (List.mem_cons_of_mem _ hm)) (acc ++ [c])]
    simp

/-- `split(sep)[-1]` of anything followed by `sep :: e` with `sep ∉ e` is `e`. -/
theorem afterLast_append_sep (sep : Char) (xs e : List Char) (h : sep ∉ e) :
    afterLast sep (xs ++ sep :: e) = e := by
  unfold afterLast
  rw [List.foldl_append, List.foldl_cons, if_pos rfl]
  rw [foldl_afterLast_no_sep sep e h []]
  rfl

/-- `split(sep)[-1]` distributes over an appended separator-free tail. -/
theorem afterLast_append_no_sep (sep : Char) (xs ys : List Char) (h : sep ∉ ys) :
    afterLast sep (xs ++ ys) = afterLast sep xs ++ ys := by
  unfold afterLast
  rw [List.foldl_append]
  exact foldl_afterLast_no_sep sep ys h _

/-- Claim C10 (implicit): the extractor dispatch is case-insensitive — the
extension is the text after the last `.` of the URL's basename, lowercased,
so a URL ending in any letter casing of `.docx` / `.pdf` / `.pptx` selects
the corresponding extractor instead of hitting the unsupported-type error. -/
theorem extension_dispatch_case_insensitive (base e : List Char) (k : ExtractorKind)
    (hdot : ('.') ∉ e) (hslash : ('/') ∉ e)
    (hlow : e.map pyLower = extOf k) :
    extension_dispatch (file_extension (basename (base ++ '.' :: e))) = some k := by
  have hb : basename (base ++ '.' :: e) = afterLast '/' base ++ '.' :: e := by
    unfold basename
    have hns : ('/') ∉ ('.' :: e) := by
      intro hm
      rcases List.mem_cons.mp hm with h1 | h2
      · exact absurd h1 (by decide)
      · exact hslash h2
    exact afterLast_append_no_sep '/' base ('.' :: e) hns
  have hext : file_extension (basename (base ++ '.' :: e)) = e.map pyLower := by
    unfold file_extension
    rw [hb, afterLast_append_sep '.' (afterLast '/' base) e hdot]
  rw [hext, hlow]
  cases k <;> rfl

/-- Witness for C10 at `base = "http://h/f"`, `e = "DOCX"`. -/
theorem extension_dispatch_case_insensitive_witness :
    ('.') ∉ (("DOCX").toList) ∧ ('/') ∉ (("DOCX").toList)
    ∧ (("DOCX").toList).map pyLower = extOf ExtractorKind.docx
    ∧ extension_dispatch
        (file_extension (basename ((("http://h/f").toList) ++ '.' :: (("DOCX").toList))))
        = some ExtractorKind.docx :=
  ⟨by decide, by decide, by decide,
    extension_dispatch_case_insensitive (("http://h/f").toList) (("DOCX").toList)
      ExtractorKind.docx (by decide) (by decide) (by decide)⟩

/-- Claim C5 (code bug): the classifier *constructs* 400-status errors for a
failed download, an unsupported extension and blank content — but the blanket
`except Exception` at `contentlabelall.py` lines 110–111 catches those very
`HTTPException(400, …)` values and re-raises them with status 500, so the
endpoint answers 500, not 400, for client-input failures.  The unsupported
`.txt` extension still short-circuits before the model call (second
component of `detect_domain_inner` is `false`). -/
theorem classifier_error_status_bug :
    detect_domain_from_file (("http://h/a.docx").toList) 404 (("x").toList)
        (("\x7b\x7d").toList)
      = Except.error { status := 500, detail := ("Failed to download file.").toList }
    ∧ detect_domain_from_file (("http://h/a.txt").toList) 200 (("x").toList)
        (("\x7b\x7d").toList)
      = Except.error { status := 500, detail := ("Unsupported file type.").toList }
    ∧ (detect_domain_inner (("http://h/a.txt").toList) 200 (("x").toList)
        (("\x7b\x7d").toList)).2 = false
    ∧ detect_domain_from_file (("http://h/a.docx").toList) 200 (("  ").toList)
        (("\x7b\x7d").toList)
      = Except.error { status := 500, detail := ("Extracted content is empty.").toList } :=
  ⟨rfl, rfl, rfl, rfl⟩

/-! ## C6, C7 — the recommender's bracket wrapping

The key fact is an append property of the JSON parser: a successful parse is
unaffected by appending `]` to the input (the closing bracket cannot extend
any token), together with fuel monotonicity.  These let the top-level parse
of `"[" + t + "]"` reuse the given parse of `t`. -/

theorem jsonWs_rb : jsonWs ']' = false := by decide

theorem skipWs_append_rb (s : List Char) :
    skipWs (s ++ [']']) = skipWs s ++ [']'] := by
  induction s with
  | nil => simp [skipWs, jsonWs_rb]
  | cons c r ih =>
    by_cases h : jsonWs c
    · simp [skipWs, h, ih]
    · simp [skipWs, h]

theorem skipWs_cons_not_ws (c : Char) (r : List Char) (h : jsonWs c = false) :
    skipWs (c :: r) = c :: r := by
  simp [skipWs, h]

theorem isPrefixOf_append_right (l r u : List Char) (h : l.isPrefixOf r = true) :
    l.isPrefixOf (r ++ u) = true := by
  induction l generalizing r with
  | nil => simp [List.isPrefixOf]
  | cons a l ih =>
    cases r with
    | nil => simp [List.isPrefixOf] at h
    | cons b r =>
      simp only [List.isPrefixOf, List.cons_append, Bool.and_eq_true] at h ⊢
      exact ⟨h.1, ih r h.2⟩

theorem isPrefixOf_length_le (l r : List Char) (h : l.isPrefixOf r = true) :
    l.length ≤ r.length := by
  induction l generalizing r with
  | nil => simp
  | cons a l ih =>
    cases r with
    | nil => simp [List.isPrefixOf] at h
    | cons b r =>
      simp only [List.isPrefixOf, Bool.and_eq_true] at h
      simpa using ih r h.2

theorem drop_append_le (n : Nat) (l u : List Char) (h : n ≤ l.length) :
    (l ++ u).drop n = l.drop n ++ u := by
  rw [List.drop_append_eq_append_drop]
  rw [show n - l.length = 0 by omega]
  simp

theorem takeWhile_append_rb (p : Char → Bool) (hp : p ']' = false) (s : List Char) :
    (s ++ [']']).takeWhile p = s.takeWhile p := by
  induction s with
  | nil => simp [List.takeWhile, hp]
  | cons c r ih =>
    by_cases h : p c <;> simp [List.takeWhile_cons, h, ih]

theorem dropWhile_append_rb (p : Char → Bool) (hp : p ']' = false) (s : List Char) :
    (s ++ [']']).dropWhile p = s.dropWhile p ++ [']'] := by
  induction s with
  | nil => simp [List.dropWhile, hp]
  | cons c r ih =>
    by_cases h : p c <;> simp [List.dropWhile_cons, h, ih]

theorem isDigit_rb : Char.isDigit ']' = false := by decide

theorem fracPart_append (s x r : List Char) (h : fracPart s = (x, r)) :
    fracPart (s ++ [']']) = (x, r ++ [']']) := by
  cases s with
  | nil =>
    simp only [fracPart] at h
    obtain ⟨rfl, rfl⟩ := Prod.mk.injEq .. ▸ h
    simp [fracPart]
  | cons c r0 =>
    by_cases hc : c = '.'
    · subst hc
      simp only [fracPart, if_pos rfl, List.cons_append] at h ⊢
      cases ht : r0.takeWhile Char.isDigit with
      | nil =>
        rw [ht] at h
        rw [takeWhile_append_rb Char.isDigit isDigit_rb r0, ht]
        obtain ⟨rfl, rfl⟩ := Prod.mk.injEq .. ▸ h
        rfl
      | cons d ds =>
        rw [ht] at h
        rw [takeWhile_append_rb Char.isDigit isDigit_rb r0, ht,
          dropWhile_append_rb Char.isDigit isDigit_rb r0]
        obtain ⟨rfl, rfl⟩ := Prod.mk.injEq .. ▸ h
        rfl
    · simp only [fracPart, if_neg hc, List.cons_append] at h ⊢
      obtain ⟨rfl, rfl⟩ := Prod.mk.injEq .. ▸ h
      rfl

theorem expPart_append (s x r : List Char) (h : expPart s = (x, r)) :
    expPart (s ++ [']']) = (x, r ++ [']']) := by
  cases s with
  | nil =>
    simp only [expPart] at h
    obtain ⟨rfl, rfl⟩ := Prod.mk.injEq .. ▸ h
    simp [expPart]
  | cons c r0 =>
    by_cases hc : c = 'e' ∨ c = 'E'
    · simp only [expPart, if_pos hc, List.cons_append] at h ⊢
      cases r0 with
      | nil =>
        obtain ⟨rfl, rfl⟩ := Prod.mk.injEq .. ▸ h
        simp only [List.nil_append]
        have hns : ¬((']':Char) = '+' ∨ (']':Char) = '-') := by decide
        rw [if_neg hns]
        rfl
      | cons c2 r2 =>
        by_cases hs : c2 = '+' ∨ c2 = '-'
        · simp only [if_pos hs, List.cons_append] at h ⊢
          cases ht : r2.takeWhile Char.isDigit with
          | nil =>
            rw [ht] at h
            rw [takeWhile_append_rb Char.isDigit isDigit_rb r2, ht]
            obtain ⟨rfl, rfl⟩ := Prod.mk.injEq .. ▸ h
            rfl
          | cons d ds =>
            rw [ht] at h
            rw [takeWhile_append_rb Char.isDigit isDigit_rb r2, ht,
              dropWhile_append_rb Char.isDigit isDigit_rb r2]
            obtain ⟨rfl, rfl⟩ := Prod.mk.injEq .. ▸ h
            rfl
        · simp only [if_neg hs, List.cons_append] at h ⊢
          have htw := takeWhile_append_rb Char.isDigit isDigit_rb (c2 :: r2)
          have hdw := dropWhile_append_rb Char.isDigit isDigit_rb (c2 :: r2)
          rw [List.cons_append] at htw hdw
          rw [htw]
          cases ht : (c2 :: r2).takeWhile Char.isDigit with
          | nil =>
            rw [ht] at h
            obtain ⟨rfl, rfl⟩ := Prod.mk.injEq .. ▸ h
            rfl
          | cons d ds =>
            rw [ht] at h
            rw [hdw]
            obtain ⟨rfl, rfl⟩ := Prod.mk.injEq .. ▸ h
            rfl
    · simp only [expPart, if_neg hc, List.cons_append] at h ⊢
      obtain ⟨rfl, rfl⟩ := Prod.mk.injEq .. ▸ h
      rfl

theorem parseNumberPos_append (s lex r : List Char)
    (h : parseNumberPos s = some (lex, r)) :
    parseNumberPos (s ++ [']']) = some (lex, r ++ [']']) := by
  cases s with
  | nil => simp [parseNumberPos] at h
  | cons c r0 =>
    by_cases h0 : c = '0'
    · simp only [parseNumberPos, if_pos h0, List.cons_append] at h ⊢
      rcases hf : fracPart r0 with ⟨f1, s1⟩
      rcases he : expPart s1 with ⟨e1, s2⟩
      rw [hf, he] at h
      rw [fracPart_append r0 f1 s1 hf, expPart_append s1 e1 s2 he]
      simp only [Option.some.injEq, Prod.mk.injEq] at h
      obtain ⟨rfl, rfl⟩ := h
      rfl
    · by_cases hd : c.isDigit
      · simp only [parseNumberPos, if_neg h0, if_pos hd, List.cons_append] at h ⊢
        have htw := takeWhile_append_rb Char.isDigit isDigit_rb r0
        have hdw := dropWhile_append_rb Char.isDigit isDigit_rb r0
        rw [htw, hdw]
        rcases hf : fracPart (r0.dropWhile Char.isDigit) with ⟨f1, s1⟩
        rcases he : expPart s1 with ⟨e1, s2⟩
        rw [hf, he] at h
        rw [fracPart_append _ f1 s1 hf, expPart_append s1 e1 s2 he]
        simp only [Option.some.injEq, Prod.mk.injEq] at h
        obtain ⟨rfl, rfl⟩ := h
        rfl
      · simp only [parseNumberPos, if_neg h0, if_neg hd] at h
        exact absurd h (by simp)

theorem parseNumber_append (s lex r : List Char)
    (h : parseNumber s = some (lex, r)) :
    parseNumber (s ++ [']']) = some (lex, r ++ [']']) := by
  cases s with
  | nil => simp [parseNumber] at h
  | cons c r0 =>
    by_cases hm : c = '-'
    · simp only [parseNumber, if_pos hm, List.cons_append] at h ⊢
      cases hp : parseNumberPos r0 with
      | none => rw [hp] at h; exact absurd h (by simp)
      | some p =>
        rcases p with ⟨lex0, rest0⟩
        rw [hp] at h
        rw [parseNumberPos_append r0 lex0 rest0 hp]
        simp only [Option.some.injEq, Prod.mk.injEq] at h
        obtain ⟨rfl, rfl⟩ := h
        rfl
    · simp only [parseNumber, if_neg hm, List.cons_append] at h ⊢
      have := parseNumberPos_append (c :: r0) lex r h
      rw [List.cons_append] at this
      exact this

theorem parseStringBody_append : ∀ (f : Nat) (s cs r : List Char),
    parseStringBody f s = some (cs, r) →
    parseStringBody f (s ++ [']']) = some (cs, r ++ [']']) := by
  intro f
  induction f with
  | zero =>
    intro s cs r h
    simp [parseStringBody] at h
  | succ f ih =>
    intro s cs r h
    cases s with
    | nil => simp [parseStringBody] at h
    | cons c r0 =>
      rw [List.cons_append]
      by_cases h1 : c = '"'
      · simp only [parseStringBody, if_pos h1] at h ⊢
        simp only [Option.some.injEq, Prod.mk.injEq] at h
        obtain ⟨rfl, rfl⟩ := h
        rfl
      · by_cases h2 : c = '\\'
        · simp only [parseStringBody, if_neg h1, if_pos h2] at h ⊢
          cases r0 with
          | nil => exact absurd h (by simp)
          | cons e r2 =>
            simp only [List.cons_append]
            by_cases h3 : e = 'u'
            · simp only [if_pos h3] at h ⊢
              cases r2 with
              | nil => exact absurd h (by simp)
              | cons a1 q1 =>
                cases q1 with
                | nil => exact absurd h (by simp)
                | cons a2 q2 =>
                  cases q2 with
                  | nil => exact absurd h (by simp)
                  | cons a3 q3 =>
                    cases q3 with
                    | nil => exact absurd h (by simp)
                    | cons a4 r3 =>
                      simp only [List.cons_append]
                      dsimp only at h
                      cases k1 : hexDigitVal a1 with
                      | none => simp [k1] at h
                      | some v1 =>
                        cases k2 : hexDigitVal a2 with
                        | none => simp [k1, k2] at h
                        | some v2 =>
                          cases k3 : hexDigitVal a3 with
                          | none => simp [k1, k2, k3] at h
                          | some v3 =>
                            cases k4 : hexDigitVal a4 with
                            | none => simp [k1, k2, k3, k4] at h
                            | some v4 =>
                              simp only [k1, k2, k3, k4] at h ⊢
                              cases hp : parseStringBody f r3 with
                              | none => simp [hp] at h
                              | some p =>
                                rcases p with ⟨v, rest⟩
                                simp only [hp, Option.some.injEq, Prod.mk.injEq] at h
                                rw [ih r3 v rest hp]
                                obtain ⟨rfl, rfl⟩ := h
                                rfl
            · simp only [if_neg h3] at h ⊢
              cases hd : escDecode e with
              | none => rw [hd] at h; exact absurd h (by simp)
              | some d =>
                dsimp only
                simp only [hd] at h
                cases hp : parseStringBody f r2 with
                | none => simp [hp] at h
                | some p =>
                  rcases p with ⟨v, rest⟩
                  simp only [hp, Option.some.injEq, Prod.mk.injEq] at h
                  rw [ih r2 v rest hp]
                  obtain ⟨rfl, rfl⟩ := h
                  rfl
        · by_cases h4 : c.toNat < 32
          · simp only [parseStringBody, if_neg h1, if_neg h2, if_pos h4] at h
            exact absurd h (by simp)
          · simp only [parseStringBody, if_neg h1, if_neg h2, if_neg h4] at h ⊢
            cases hp : parseStringBody f r0 with
            | none => rw [hp] at h; exact absurd h (by simp)
            | some p =>
              rcases p with ⟨v, rest⟩
              rw [hp] at h
              rw [ih r0 v rest hp]
              simp only [Option.some.injEq, Prod.mk.injEq] at h
              obtain ⟨rfl, rfl⟩ := h
              rfl

theorem parseStringBody_mono : ∀ (f g : Nat), f ≤ g → ∀ (s cs r : List Char),
    parseStringBody f s = some (cs, r) → parseStringBody g s = some (cs, r) := by
  intro f
  induction f with
  | zero =>
    intro g hg s cs r h
    simp [parseStringBody] at h
  | succ f ih =>
    intro g hg s cs r h
    obtain ⟨g0, rfl⟩ : ∃ g0, g = g0 + 1 := ⟨g - 1, by omega⟩
    have hfg : f ≤ g0 := by omega
    cases s with
    | nil => simp [parseStringBody] at h
    | cons c r0 =>
      by_cases h1 : c = '"'
      · simp only [parseStringBody, if_pos h1] at h ⊢
        exact h
      · by_cases h2 : c = '\\'
        · simp only [parseStringBody, if_neg h1, if_pos h2] at h ⊢
          cases r0 with
          | nil => exact absurd h (by simp)
          | cons e r2 =>
            by_cases h3 : e = 'u'
            · simp only [if_pos h3] at h ⊢
              cases r2 with
              | nil => exact absurd h (by simp)
              | cons a1 q1 =>
                cases q1 with
                | nil => exact absurd h (by simp)
                | cons a2 q2 =>
                  cases q2 with
                  | nil => exact absurd h (by simp)
                  | cons a3 q3 =>
                    cases q3 with
                    | nil => exact absurd h (by simp)
                    | cons a4 r3 =>
                      dsimp only at h ⊢
                      cases k1 : hexDigitVal a1 with
                      | none => simp [k1] at h
                      | some v1 =>
                        cases k2 : hexDigitVal a2 with
                        | none => simp [k1, k2] at h
                        | some v2 =>
                          cases k3 : hexDigitVal a3 with
                          | none => simp [k1, k2, k3] at h
                          | some v3 =>
                            cases k4 : hexDigitVal a4 with
                            | none => simp [k1, k2, k3, k4] at h
                            | some v4 =>
                              simp only [k1, k2, k3, k4] at h ⊢
                              cases hp : parseStringBody f r3 with
                              | none => simp [hp] at h
                              | some p =>
                                rcases p with ⟨v, rest⟩
                                simp only [hp, Option.some.injEq, Prod.mk.injEq] at h
                                rw [ih g0 hfg r3 v rest hp]
                                obtain ⟨rfl, rfl⟩ := h
                                rfl
            · simp only [if_neg h3] at h ⊢
              cases hd : escDecode e with
              | none => simp [hd] at h
              | some d =>
                simp only [hd] at h ⊢
                cases hp : parseStringBody f r2 with
                | none => simp [hp] at h
                | some p =>
                  rcases p with ⟨v, rest⟩
                  simp only [hp, Option.some.injEq, Prod.mk.injEq] at h
                  rw [ih g0 hfg r2 v rest hp]
                  obtain ⟨rfl, rfl⟩ := h
                  rfl
        · by_cases h4 : c.toNat < 32
          · simp only [parseStringBody, if_neg h1, if_neg h2, if_pos h4] at h
            exact absurd h (by simp)
          · simp only [parseStringBody, if_neg h1, if_neg h2, if_neg h4] at h ⊢
            cases hp : parseStringBody f r0 with
            | none => simp [hp] at h
            | some p =>
              rcases p with ⟨v, rest⟩
              simp only [hp, Option.some.injEq, Prod.mk.injEq] at h
              rw [ih g0 hfg r0 v rest hp]
              obtain ⟨rfl, rfl⟩ := h
              rfl

set_option maxHeartbeats 2000000 in
theorem parser_mono : ∀ (f g : Nat), f ≤ g →
    (∀ s v r, parseVal f s = some (v, r) → parseVal g s = some (v, r))
    ∧ (∀ s v r, parseArr f s = some (v, r) → parseArr g s = some (v, r))
    ∧ (∀ s vs r, parseElems f s = some (vs, r) → parseElems g s = some (vs, r))
    ∧ (∀ s v r, parseObj f s = some (v, r) → parseObj g s = some (v, r))
    ∧ (∀ s ms r, parseMembers f s = some (ms, r) → parseMembers g s = some (ms, r)) := by
  intro f
  induction f with
  | zero =>
    intro g hg
    refine ⟨?_, ?_, ?_, ?_, ?_⟩ <;> intro s x r h <;> exact Option.noConfusion h
  | succ f ih =>
    intro g hg
    obtain ⟨g0, rfl⟩ : ∃ g0, g = g0 + 1 := ⟨g - 1, by omega⟩
    have hfg : f ≤ g0 := by omega
    obtain ⟨ihV, ihA, ihE, ihO, ihM⟩ := ih g0 hfg
    refine ⟨?_, ?_, ?_, ?_, ?_⟩
    · -- parseVal
      intro s v r h
      simp only [parseVal] at h ⊢
      cases hsw : skipWs s with
      | nil => simp [hsw] at h
      | cons c r0 =>
        simp only [hsw] at h ⊢
        split_ifs at h ⊢ <;> first | exact h | skip
        · exact ihO r0 v r h
        · exact ihA r0 v r h
        · cases hk : parseStringBody f r0 with
          | none => simp [hk] at h
          | some p =>
            rcases p with ⟨cs, rest⟩
            simp only [hk, Option.some.injEq, Prod.mk.injEq] at h
            rw [parseStringBody_mono f g0 hfg r0 cs rest hk]
            obtain ⟨rfl, rfl⟩ := h
            rfl
    · -- parseArr
      intro s v r h
      simp only [parseArr] at h ⊢
      cases hsw : skipWs s with
      | nil => simp [hsw] at h
      | cons c r0 =>
        simp only [hsw] at h ⊢
        split_ifs at h ⊢ <;> first | exact h | skip
        cases he : parseElems f s with
        | none => simp [he] at h
        | some p =>
          rcases p with ⟨vs, rest⟩
          simp only [he, Option.some.injEq, Prod.mk.injEq] at h
          rw [ihE s vs rest he]
          obtain ⟨rfl, rfl⟩ := h
          rfl
    · -- parseElems
      intro s vs r h
      simp only [parseElems] at h ⊢
      cases hv : parseVal f s with
      | none => simp [hv] at h
      | some p =>
        rcases p with ⟨v, rest⟩
        simp only [hv] at h
        rw [ihV s v rest hv]
        cases hsw : skipWs rest with
        | nil => simp [hsw] at h
        | cons c r0 =>
          simp only [hsw] at h ⊢
          split_ifs at h ⊢ <;> first | exact h | skip
          cases he : parseElems f r0 with
          | none => simp [he] at h
          | some p2 =>
            rcases p2 with ⟨vs2, rest2⟩
            simp only [he, Option.some.injEq, Prod.mk.injEq] at h
            rw [ihE r0 vs2 rest2 he]
            obtain ⟨rfl, rfl⟩ := h
            rfl
    · -- parseObj
      intro s v r h
      simp only [parseObj] at h ⊢
      cases hsw : skipWs s with
      | nil => simp [hsw] at h
      | cons c r0 =>
        simp only [hsw] at h ⊢
        split_ifs at h ⊢ <;> first | exact h | skip
        cases hm : parseMembers f s with
        | none => simp [hm] at h
        | some p =>
          rcases p with ⟨ms, rest⟩
          simp only [hm, Option.some.injEq, Prod.mk.injEq] at h
          rw [ihM s ms rest hm]
          obtain ⟨rfl, rfl⟩ := h
          rfl
    · -- parseMembers
      intro s ms r h
      simp only [parseMembers] at h ⊢
      cases hsw : skipWs s with
      | nil => simp [hsw] at h
      | cons c r0 =>
        simp only [hsw] at h ⊢
        split_ifs at h ⊢ <;> first | exact h | skip
        cases hk : parseStringBody f r0 with
        | none => simp [hk] at h
        | some p =>
          rcases p with ⟨key, rest⟩
          simp only [hk] at h
          rw [parseStringBody_mono f g0 hfg r0 key rest hk]
          cases hsw2 : skipWs rest with
          | nil => simp [hsw2] at h
          | cons c2 r2 =>
            simp only [hsw2] at h ⊢
            split_ifs at h ⊢ <;> first | exact h | skip
            cases hv : parseVal f r2 with
            | none => simp [hv] at h
            | some p2 =>
              rcases p2 with ⟨v, rest2⟩
              simp only [hv] at h
              rw [ihV r2 v rest2 hv]
              cases hsw3 : skipWs rest2 with
              | nil => simp [hsw3] at h
              | cons c3 r3 =>
                simp only [hsw3] at h ⊢
                split_ifs at h ⊢ <;> first | exact h | skip
                cases hm : parseMembers f r3 with
                | none => simp [hm] at h
                | some p3 =>
                  rcases p3 with ⟨ms2, rest3⟩
                  simp only [hm, Option.some.injEq, Prod.mk.injEq] at h
                  rw [ihM r3 ms2 rest3 hm]
                  obtain ⟨rfl, rfl⟩ := h
                  rfl

theorem isPrefixOf_append_rb_eq (l r : List Char) (h : (']') ∉ l) :
    l.isPrefixOf (r ++ [']']) = l.isPrefixOf r := by
  induction l generalizing r with
  | nil => simp [List.isPrefixOf]
  | cons a l ih =>
    cases r with
    | nil =>
      have ha : a ≠ ']' := fun he => h (by simp [he])
      simp [List.isPrefixOf, ha]
    | cons b r =>
      simp only [List.cons_append, List.isPrefixOf, List.append_eq]
      rw [ih r (fun hm => h (List.mem_cons_of_mem _ hm))]

set_option maxHeartbeats 2000000 in
theorem parser_append : ∀ (f : Nat),
    (∀ s v r, parseVal f s = some (v, r) → parseVal f (s ++ [']']) = some (v, r ++ [']']))
    ∧ (∀ s v r, parseArr f s = some (v, r) → parseArr f (s ++ [']']) = some (v, r ++ [']']))
    ∧ (∀ s vs r, parseElems f s = some (vs, r) →
        parseElems f (s ++ [']']) = some (vs, r ++ [']']))
    ∧ (∀ s v r, parseObj f s = some (v, r) → parseObj f (s ++ [']']) = some (v, r ++ [']']))
    ∧ (∀ s ms r, parseMembers f s = some (ms, r) →
        parseMembers f (s ++ [']']) = some (ms, r ++ [']'])) := by
  intro f
  induction f with
  | zero =>
    refine ⟨?_, ?_, ?_, ?_, ?_⟩ <;> intro s x r h <;> exact Option.noConfusion h
  | succ f ih =>
    obtain ⟨ihV, ihA, ihE, ihO, ihM⟩ := ih
    refine ⟨?_, ?_, ?_, ?_, ?_⟩
    · -- parseVal
      intro s v r h
      simp only [parseVal] at h ⊢
      rw [skipWs_append_rb]
      cases hsw : skipWs s with
      | nil => simp [hsw] at h
      | cons c r0 =>
        simp only [hsw, List.cons_append] at h ⊢
        by_cases hb1 : c = '{'
        · simp only [if_pos hb1] at h ⊢
          exact ihO r0 v r h
        by_cases hb2 : c = '['
        · simp only [if_neg hb1, if_pos hb2] at h ⊢
          exact ihA r0 v r h
        by_cases hb3 : c = '"'
        · simp only [if_neg hb1, if_neg hb2, if_pos hb3] at h ⊢
          cases hk : parseStringBody f r0 with
          | none => simp [hk] at h
          | some p =>
            rcases p with ⟨cs, rest⟩
            simp only [hk, Option.some.injEq, Prod.mk.injEq] at h
            rw [parseStringBody_append f r0 cs rest hk]
            obtain ⟨rfl, rfl⟩ := h
            rfl
        simp only [if_neg hb1, if_neg hb2, if_neg hb3] at h ⊢
        by_cases hb4 : c = 't'
        · simp only [if_pos hb4] at h ⊢
          cases hp : (("rue").toList).isPrefixOf r0 with
          | false => rw [hp] at h; simp at h
          | true =>
            simp only [hp, if_pos rfl, Option.some.injEq, Prod.mk.injEq] at h
            rw [isPrefixOf_append_right _ r0 [']'] hp]
            have hlen := isPrefixOf_length_le _ r0 hp
            simp only [if_pos rfl]
            rw [drop_append_le 3 r0 [']'] (by simpa using hlen)]
            obtain ⟨rfl, rfl⟩ := h
            rfl
        by_cases hb5 : c = 'f'
        · simp only [if_neg hb4, if_pos hb5] at h ⊢
          cases hp : (("alse").toList).isPrefixOf r0 with
          | false => rw [hp] at h; simp at h
          | true =>
            simp only [hp, if_pos rfl, Option.some.injEq, Prod.mk.injEq] at h
            rw [isPrefixOf_append_right _ r0 [']'] hp]
            have hlen := isPrefixOf_length_le _ r0 hp
            simp only [if_pos rfl]
            rw [drop_append_le 4 r0 [']'] (by simpa using hlen)]
            obtain ⟨rfl, rfl⟩ := h
            rfl
        by_cases hb6 : c = 'n'
        · simp only [if_neg hb4, if_neg hb5, if_pos hb6] at h ⊢
          cases hp : (("ull").toList).isPrefixOf r0 with
          | false => rw [hp] at h; simp at h
          | true =>
            simp only [hp, if_pos rfl, Option.some.injEq, Prod.mk.injEq] at h
            rw [isPrefixOf_append_right _ r0 [']'] hp]
            have hlen := isPrefixOf_length_le _ r0 hp
            simp only [if_pos rfl]
            rw [drop_append_le 3 r0 [']'] (by simpa using hlen)]
            obtain ⟨rfl, rfl⟩ := h
            rfl
        by_cases hb7 : c = 'N'
        · simp only [if_neg hb4, if_neg hb5, if_neg hb6, if_pos hb7] at h ⊢
          cases hp : (("aN").toList).isPrefixOf r0 with
          | false => rw [hp] at h; simp at h
          | true =>
            simp only [hp, if_pos rfl, Option.some.injEq, Prod.mk.injEq] at h
            rw [isPrefixOf_append_right _ r0 [']'] hp]
            have hlen := isPrefixOf_length_le _ r0 hp
            simp only [if_pos rfl]
            rw [drop_append_le 2 r0 [']'] (by simpa using hlen)]
            obtain ⟨rfl, rfl⟩ := h
            rfl
        by_cases hb8 : c = 'I'
        · simp only [if_neg hb4, if_neg hb5, if_neg hb6, if_neg hb7, if_pos hb8] at h ⊢
          cases hp : (("nfinity").toList).isPrefixOf r0 with
          | false => rw [hp] at h; simp at h
          | true =>
            simp only [hp, if_pos rfl, Option.some.injEq, Prod.mk.injEq] at h
            rw [isPrefixOf_append_right _ r0 [']'] hp]
            have hlen := isPrefixOf_length_le _ r0 hp
            simp only [if_pos rfl]
            rw [drop_append_le 7 r0 [']'] (by simpa using hlen)]
            obtain ⟨rfl, rfl⟩ := h
            rfl
        simp only [if_neg hb4, if_neg hb5, if_neg hb6, if_neg hb7, if_neg hb8] at h ⊢
        by_cases hb9 : c = '-' ∧ (("Infinity").toList).isPrefixOf r0
        · have hp9 : (("Infinity").toList).isPrefixOf (r0 ++ [']']) = true :=
            isPrefixOf_append_right _ r0 [']'] hb9.2
          have h9 : c = '-' ∧ (("Infinity").toList).isPrefixOf (r0 ++ [']']) = true :=
            ⟨hb9.1, hp9⟩
          simp only [if_pos hb9, Option.some.injEq, Prod.mk.injEq] at h
          simp only [if_pos h9]
          have hlen := isPrefixOf_length_le _ r0 hb9.2
          rw [drop_append_le 8 r0 [']'] (by simpa using hlen)]
          obtain ⟨rfl, rfl⟩ := h
          rfl
        · have h9 : ¬(c = '-' ∧ (("Infinity").toList).isPrefixOf (r0 ++ [']']) = true) := by
            rw [isPrefixOf_append_rb_eq (("Infinity").toList) r0 (by decide)]
            exact hb9
          simp only [if_neg hb9] at h
          simp only [if_neg h9]
          cases hnum : parseNumber (c :: r0) with
          | none => simp [hnum] at h
          | some p =>
            rcases p with ⟨lex, rest⟩
            simp only [hnum, Option.some.injEq, Prod.mk.injEq] at h
            have := parseNumber_append (c :: r0) lex rest hnum
            rw [List.cons_append] at this
            rw [this]
            obtain ⟨rfl, rfl⟩ := h
            rfl
    · -- parseArr
      intro s v r h
      simp only [parseArr] at h ⊢
      rw [skipWs_append_rb]
      cases hsw : skipWs s with
      | nil => simp [hsw] at h
      | cons c r0 =>
        simp only [hsw, List.cons_append] at h ⊢
        by_cases hb : c = ']'
        · simp only [if_pos hb, Option.some.injEq, Prod.mk.injEq] at h ⊢
          obtain ⟨rfl, rfl⟩ := h
          exact ⟨rfl, rfl⟩
        · simp only [if_neg hb] at h ⊢
          cases he : parseElems f s with
          | none => simp [he] at h
          | some p =>
            rcases p with ⟨vs, rest⟩
            simp only [he, Option.some.injEq, Prod.mk.injEq] at h
            rw [ihE s vs rest he]
            obtain ⟨rfl, rfl⟩ := h
            rfl
    · -- parseElems
      intro s vs r h
      simp only [parseElems] at h ⊢
      cases hv : parseVal f s with
      | none => simp [hv] at h
      | some p =>
        rcases p with ⟨v, rest⟩
        simp only [hv] at h
        rw [ihV s v rest hv]
        dsimp only
        rw [skipWs_append_rb]
        cases hsw : skipWs rest with
        | nil => simp [hsw] at h
        | cons c r0 =>
          simp only [hsw, List.cons_append] at h ⊢
          by_cases hb1 : c = ','
          · simp only [if_pos hb1] at h ⊢
            cases he : parseElems f r0 with
            | none => simp [he] at h
            | some p2 =>
              rcases p2 with ⟨vs2, rest2⟩
              simp only [he, Option.some.injEq, Prod.mk.injEq] at h
              rw [ihE r0 vs2 rest2 he]
              obtain ⟨rfl, rfl⟩ := h
              rfl
          · by_cases hb2 : c = ']'
            · simp only [if_neg hb1, if_pos hb2, Option.some.injEq, Prod.mk.injEq] at h ⊢
              obtain ⟨rfl, rfl⟩ := h
              exact ⟨rfl, rfl⟩
            · simp only [if_neg hb1, if_neg hb2] at h
              exact absurd h (by simp)
    · -- parseObj
      intro s v r h
      simp only [parseObj] at h ⊢
      rw [skipWs_append_rb]
      cases hsw : skipWs s with
      | nil => simp [hsw] at h
      | cons c r0 =>
        simp only [hsw, List.cons_append] at h ⊢
        by_cases hb : c = '}'
        · simp only [if_pos hb, Option.some.injEq, Prod.mk.injEq] at h ⊢
          obtain ⟨rfl, rfl⟩ := h
          exact ⟨rfl, rfl⟩
        · simp only [if_neg hb] at h ⊢
          cases hm : parseMembers f s with
          | none => simp [hm] at h
          | some p =>
            rcases p with ⟨ms, rest⟩
            simp only [hm, Option.some.injEq, Prod.mk.injEq] at h
            rw [ihM s ms rest hm]
            obtain ⟨rfl, rfl⟩ := h
            rfl
    · -- parseMembers
      intro s ms r h
      simp only [parseMembers] at h ⊢
      rw [skipWs_append_rb]
      cases hsw : skipWs s with
      | nil => simp [hsw] at h
      | cons c r0 =>
        simp only [hsw, List.cons_append] at h ⊢
        by_cases hb : c = '"'
        · simp only [if_pos hb] at h ⊢
          cases hk : parseStringBody f r0 with
          | none => simp [hk] at h
          | some p =>
            rcases p with ⟨key, rest⟩
            simp only [hk] at h
            rw [parseStringBody_append f r0 key rest hk]
            dsimp only
            rw [skipWs_append_rb]
            cases hsw2 : skipWs rest with
            | nil => simp [hsw2] at h
            | cons c2 r2 =>
              simp only [hsw2, List.cons_append] at h ⊢
              by_cases hb2 : c2 = ':'
              · simp only [if_pos hb2] at h ⊢
                cases hv : parseVal f r2 with
                | none => simp [hv] at h
                | some p2 =>
                  rcases p2 with ⟨v, rest2⟩
                  simp only [hv] at h
                  rw [ihV r2 v rest2 hv]
                  dsimp only
                  rw [skipWs_append_rb]
                  cases hsw3 : skipWs rest2 with
                  | nil => simp [hsw3] at h
                  | cons c3 r3 =>
                    simp only [hsw3, List.cons_append] at h ⊢
                    by_cases hb3 : c3 = ','
                    · simp only [if_pos hb3] at h ⊢
                      cases hm : parseMembers f r3 with
                      | none => simp [hm] at h
                      | some p3 =>
                        rcases p3 with ⟨ms2, rest3⟩
                        simp only [hm, Option.some.injEq, Prod.mk.injEq] at h
                        rw [ihM r3 ms2 rest3 hm]
                        obtain ⟨rfl, rfl⟩ := h
                        rfl
                    · by_cases hb4 : c3 = '}'
                      · simp only [if_neg hb3, if_pos hb4,
                          Option.some.injEq, Prod.mk.injEq] at h ⊢
                        obtain ⟨rfl, rfl⟩ := h
                        exact ⟨rfl, rfl⟩
                      · simp only [if_neg hb3, if_neg hb4] at h
                        exact absurd h (by simp)
              · simp only [if_neg hb2] at h
                exact absurd h (by simp)
        · simp only [if_neg hb] at h
          exact absurd h (by simp)

theorem skipWs_length_le (s : List Char) : (skipWs s).length ≤ s.length := by
  induction s with
  | nil => simp [skipWs]
  | cons c r ih =>
    by_cases h : jsonWs c <;> simp [skipWs, h] <;> omega

theorem jsonWs_imp_pyIsSpace (c : Char) (h : jsonWs c = true) : pyIsSpace c = true := by
  simp only [jsonWs, Bool.or_eq_true, decide_eq_true_eq] at h
  simp only [pyIsSpace, Bool.or_eq_true, decide_eq_true_eq]
  tauto

theorem length_dropWhile_le_char (p : Char → Bool) (l : List Char) :
    (l.dropWhile p).length ≤ l.length := by
  induction l with
  | nil => simp [List.dropWhile]
  | cons c r ih =>
    by_cases h : p c <;> simp [List.dropWhile_cons, h] <;> omega

theorem dropWhile_eq_self_of_length (p : Char → Bool) (l : List Char)
    (h : (l.dropWhile p).length = l.length) : l.dropWhile p = l := by
  cases l with
  | nil => rfl
  | cons c r =>
    by_cases hp : p c
    · rw [List.dropWhile_cons] at h ⊢
      simp only [hp, if_true] at h ⊢
      have := length_dropWhile_le_char p r
      simp at h
      omega
    · simp [List.dropWhile_cons, hp]

theorem pyStrip_eq_self_dropWhile (s : List Char) (h : pyStrip s = s) :
    s.dropWhile pyIsSpace = s := by
  have h1 : (s.dropWhile pyIsSpace).length ≤ s.length := length_dropWhile_le_char ..
  have h2 : (pyStrip s).length ≤ (s.dropWhile pyIsSpace).length := by
    unfold pyStrip stripChars dropRightWhile
    rw [List.length_reverse]
    calc ((s.dropWhile pyIsSpace).reverse.dropWhile pyIsSpace).length
        ≤ (s.dropWhile pyIsSpace).reverse.length := length_dropWhile_le_char ..
      _ = (s.dropWhile pyIsSpace).length := List.length_reverse ..
  rw [h] at h2
  exact dropWhile_eq_self_of_length _ _ (le_antisymm h1 h2)

theorem pyStrip_eq_self_head (s : List Char) (c : Char) (r : List Char)
    (h : pyStrip s = s) (hs : s = c :: r) : pyIsSpace c = false := by
  have hd := pyStrip_eq_self_dropWhile s h
  rw [hs] at hd
  cases hp : pyIsSpace c with
  | false => rfl
  | true =>
    rw [List.dropWhile_cons] at hd
    simp only [hp, if_true] at hd
    have h1 := length_dropWhile_le_char pyIsSpace r
    have h2 := congrArg List.length hd
    simp at h2
    omega

theorem dropRightWhile_eq_self (p : Char → Bool) (s : List Char)
    (hl : ∀ c, s.getLast? = some c → p c = false) :
    dropRightWhile p s = s := by
  unfold dropRightWhile
  cases hrev : s.reverse with
  | nil =>
    have hs : s = [] := by
      have := congrArg List.reverse hrev
      simpa using this
    subst hs
    rfl
  | cons d rr =>
    have hd : s.getLast? = some d := by
      rw [← List.head?_reverse, hrev]
      rfl
    have hp := hl d hd
    rw [List.dropWhile_cons]
    simp only [hp, Bool.false_eq_true, if_false]
    rw [← hrev, List.reverse_reverse]

theorem stripChars_eq_self (p : Char → Bool) (s : List Char)
    (hh : ∀ c, s.head? = some c → p c = false)
    (hl : ∀ c, s.getLast? = some c → p c = false) :
    stripChars p s = s := by
  unfold stripChars
  have h1 : s.dropWhile p = s := by
    cases s with
    | nil => rfl
    | cons c r =>
      have := hh c rfl
      simp [List.dropWhile_cons, this]
  rw [h1]
  exact dropRightWhile_eq_self p s hl

theorem parseVal_nil (f : Nat) : parseVal f [] = none := by
  cases f with
  | zero => rfl
  | succ f => rfl

theorem json_loads_some (s : List Char) (v : JVal) (h : json_loads s = some v) :
    ∃ rest, parseVal (3 * s.length + 3) s = some (v, rest) ∧ skipWs rest = [] := by
  unfold json_loads at h
  cases hp : parseVal (3 * s.length + 3) s with
  | none => rw [hp] at h; exact absurd h (by simp)
  | some p =>
    rcases p with ⟨v0, rest⟩
    rw [hp] at h
    dsimp only at h
    by_cases hw : skipWs rest = []
    · rw [if_pos hw] at h
      simp only [Option.some.injEq] at h
      subst h
      exact ⟨rest, rfl, hw⟩
    · rw [if_neg hw] at h
      exact absurd h (by simp)

/-- Appending `]` to a fully parsed value and wrapping in `[` … `]` parses as
the singleton array: the core of the recommender's bracket-wrap tolerance. -/
theorem parseVal_bracket_wrap (f : Nat) (t : List Char) (v : JVal) (rest : List Char)
    (hpv : parseVal f t = some (v, rest)) (hw : skipWs rest = [])
    (hsk : skipWs t = t) (hne : t ≠ []) (hhead : t.head? ≠ some ']') :
    parseVal (f + 3) ('[' :: (t ++ [']'])) = some (JVal.arr [v], []) := by
  obtain ⟨c0, t1, rfl⟩ : ∃ c0 t1, t = c0 :: t1 := by
    cases t with
    | nil => exact absurd rfl hne
    | cons a b => exact ⟨a, b, rfl⟩
  have hc0 : ¬c0 = ']' := by
    intro hc
    exact hhead (by rw [hc]; rfl)
  have hj0 : jsonWs c0 = false := by
    cases hj : jsonWs c0 with
    | false => rfl
    | true =>
      exfalso
      rw [show skipWs (c0 :: t1) = skipWs t1 by simp [skipWs, hj]] at hsk
      have h1 := skipWs_length_le t1
      have h2 := congrArg List.length hsk
      simp at h2
      omega
  -- the element parse with the bracket appended
  have hE : parseElems (f + 1) ((c0 :: t1) ++ [']']) = some ([v], []) := by
    have hap := (parser_append f).1 (c0 :: t1) v rest hpv
    show parseElems (f + 1) ((c0 :: t1) ++ [']']) = some ([v], [])
    simp only [parseElems]
    rw [hap]
    dsimp only
    rw [skipWs_append_rb, hw]
    simp only [List.nil_append]
    rw [if_neg (by decide : ¬(']' : Char) = ',')]
    simp
  -- the array parse
  have hA : parseArr (f + 2) ((c0 :: t1) ++ [']']) = some (JVal.arr [v], []) := by
    show parseArr ((f + 1) + 1) ((c0 :: t1) ++ [']']) = some (JVal.arr [v], [])
    simp only [parseArr]
    rw [List.cons_append, skipWs_cons_not_ws c0 _ hj0]
    dsimp only
    rw [if_neg hc0, ← List.cons_append, hE]
  -- the top-level value parse
  show parseVal ((f + 2) + 1) ('[' :: ((c0 :: t1) ++ [']'])) = some (JVal.arr [v], [])
  simp only [parseVal]
  rw [skipWs_cons_not_ws '[' _ (by decide)]
  dsimp only
  rw [if_neg (by decide : ¬('[' : Char) = '{'), if_pos rfl, hA]

/-- Claim C6: when the normalized model text is a single JSON object with no
enclosing brackets and no surrounding whitespace, the recommender's
array-wrapping step (`strip()`, `strip("[]")`, wrap in `[` and `]`,
`courserecommendataion.py` line 96) yields text that parses as the one-element
JSON array containing that object. -/
theorem recommend_wrap_single_object (t : List Char) (o : List (List Char × JVal))
    (hstrip : pyStrip t = t)
    (hobj : json_loads t = some (JVal.obj o))
    (hh1 : t.head? ≠ some '[') (hh2 : t.head? ≠ some ']')
    (hl1 : t.getLast? ≠ some '[') (hl2 : t.getLast? ≠ some ']') :
    json_loads (recommend_wrap t) = some (JVal.arr [JVal.obj o]) := by
  obtain ⟨rest, hpv, hw⟩ := json_loads_some t _ hobj
  have hne : t ≠ [] := by
    intro ht
    rw [ht] at hobj
    rw [show json_loads [] = none from rfl] at hobj
    exact Option.noConfusion hobj
  obtain ⟨c0, t1, ht⟩ : ∃ c0 t1, t = c0 :: t1 := by
    cases hcc : t with
    | nil => exact absurd hcc hne
    | cons a b => exact ⟨a, b, rfl⟩
  have hskip : skipWs t = t := by
    rw [ht]
    apply skipWs_cons_not_ws
    have hps := pyStrip_eq_self_head t c0 t1 hstrip ht
    cases hj : jsonWs c0 with
    | false => rfl
    | true => rw [jsonWs_imp_pyIsSpace c0 hj] at hps; exact absurd hps (by simp)
  have hc0l : c0 ≠ '[' := by
    intro he
    apply hh1
    rw [ht, he]
    rfl
  have hc0r : c0 ≠ ']' := by
    intro he
    apply hh2
    rw [ht, he]
    rfl
  have hsb : stripChars isSquareBracket (pyStrip t) = t := by
    rw [hstrip]
    apply stripChars_eq_self
    · intro c hc
      rw [ht] at hc
      simp only [List.head?_cons, Option.some.injEq] at hc
      subst hc
      simp [isSquareBracket, hc0l, hc0r]
    · intro c hc
      have h1 : c ≠ '[' := fun he => hl1 (he ▸ hc)
      have h2 : c ≠ ']' := fun he => hl2 (he ▸ hc)
      simp [isSquareBracket, h1, h2]
  unfold recommend_wrap
  rw [hsb]
  unfold json_loads
  have hlen : ('[' :: (t ++ [']'])).length = t.length + 2 := by simp
  rw [hlen]
  rw [show 3 * (t.length + 2) + 3 = (3 * t.length + 6) + 3 by ring]
  have hmono := (parser_mono (3 * t.length + 3) (3 * t.length + 6) (by omega)).1 t _ _ hpv
  rw [parseVal_bracket_wrap (3 * t.length + 6) t (JVal.obj o) rest hmono hw hskip hne hh2]
  rfl

/-- Witness for C6 at the spec's example object. -/
theorem recommend_wrap_single_object_witness :
    pyStrip recObjExample = recObjExample
    ∧ json_loads recObjExample = some (JVal.obj recObjParsed)
    ∧ json_loads (recommend_wrap recObjExample) = some (JVal.arr [JVal.obj recObjParsed]) :=
  ⟨rfl, rfl,
    recommend_wrap_single_object recObjExample recObjParsed rfl rfl
      (by decide) (by decide) (by decide) (by decide)⟩

/-- Claim C7: the nested JSON array `[[1,2],[3,4]]` is valid model output, yet
the recommender's `strip("[]")`-then-rewrap heuristic turns it into
`[1,2],[3,4]`, which no longer parses, so the request fails with the
`RecommendationParseError` even though the original text was valid. -/
theorem recommend_nested_array_corrupt :
    json_loads nestedArrExample =
      some (JVal.arr [JVal.arr [JVal.num (("1").toList), JVal.num (("2").toList)],
        JVal.arr [JVal.num (("3").toList), JVal.num (("4").toList)]])
    ∧ recommend_parse_stage nestedArrExample = RecOutcome.recommendationParseError :=
  ⟨rfl, rfl⟩
